import Mathlib

/-!
Verification of the three-vessel water-pouring solver.

The development embeds, faithfully to the C++ sources, the state type
`VesselsState` (a `std::array<uint16_t, 3>`), its operations `transfer`,
`next_states`, `contains` and the hash functor, the `gcd` helpers from
`utils.h`, the solvability pre-check performed in `main`, and the
breadth-first search `WaterPouringPuzzleSolver::solve_water`, and proves
the specification's properties about them.
-/

namespace WaterPouring

/-- Modulus of the 16-bit unsigned `water` measurement type (`uint16_t`). -/
def W : Nat := 65536

/-- Unsigned 16-bit subtraction (wraps modulo 2^16), as performed on `water` values
that are already reduced below 2^16. -/
def usub (a b : Nat) : Nat := (a + W - b) % W

/-- Unsigned 16-bit addition (wraps modulo 2^16). -/
def uadd (a b : Nat) : Nat := (a + b) % W

/-- Value of `type_max<water>()`, i.e. `std::numeric_limits<uint16_t>::max()` = 65535. -/
def type_max : Nat := 65535

/-- The three vessels' current contents (`class VesselsState`, a
`std::array<water, 3>`); each field holds a 16-bit `water` value. -/
structure VesselsState where
  v0 : Nat
  v1 : Nat
  v2 : Nat
deriving DecidableEq, Repr

/-- Reading `state.at(i)` / `state[i]`. -/
def VesselsState.get (s : VesselsState) : Fin 3 → Nat
  | 0 => s.v0
  | 1 => s.v1
  | 2 => s.v2

/-- Writing through `state.at(i)`. -/
def VesselsState.set (s : VesselsState) : Fin 3 → Nat → VesselsState
  | 0, x => ⟨x, s.v1, s.v2⟩
  | 1, x => ⟨s.v0, x, s.v2⟩
  | 2, x => ⟨s.v0, s.v1, x⟩

/-- Method `VesselsState::transfer(src, dst, volumes)`: pour from `src` into `dst`.
`dst_free = volumes.at(dst) - this->at(dst)` is `uint16_t` arithmetic; the two
mutations of `result` happen in the order of the C++ statements. -/
def VesselsState.transfer (s : VesselsState) (src dst : Fin 3)
    (volumes : VesselsState) : VesselsState :=
  let dst_free := usub (volumes.get dst) (s.get dst)
  if s.get src ≤ dst_free then
    let r := s.set dst (uadd (s.get dst) (s.get src))
    r.set src 0
  else
    let r := s.set dst (uadd (s.get dst) dst_free)
    r.set src (usub (r.get src) dst_free)

/-- Method `VesselsState::contains(volume)`: does any vessel hold exactly `volume`? -/
def VesselsState.contains (s : VesselsState) (volume : Nat) : Bool :=
  s.get 0 == volume || s.get 1 == volume || s.get 2 == volume

/-- One candidate pour inside `next_states`: guarded by
`from != to && this->at(to) < volumes.at(to) && this->at(from) > 0`. -/
def pourList (s : VesselsState) (volumes : VesselsState) (src dst : Fin 3) :
    List VesselsState :=
  if src ≠ dst ∧ s.get dst < volumes.get dst ∧ 0 < s.get src then
    [s.transfer src dst volumes]
  else []

/-- Body of the outer `for (from = 0; from < 3; ...)` loop of `next_states`:
a Fill when the vessel is empty, a Drain when it is not, then the pours. -/
def nextStatesAt (s : VesselsState) (volumes : VesselsState) (src : Fin 3) :
    List VesselsState :=
  (if s.get src = 0 then [s.set src (volumes.get src)] else [])
    ++ (if s.get src ≠ 0 then [s.set src 0] else [])
    ++ (pourList s volumes src 0 ++ pourList s volumes src 1 ++ pourList s volumes src 2)

/-- Method `VesselsState::next_states(volumes)`: all successor states, in push order. -/
def VesselsState.next_states (s : VesselsState) (volumes : VesselsState) :
    List VesselsState :=
  nextStatesAt s volumes 0 ++ nextStatesAt s volumes 1 ++ nextStatesAt s volumes 2

/-- The hash functor `VesselsState::operator()`:
`(size_t(state[0]) * type_max<water>() + state[1]) * type_max<water>() + state[2]`.
`size_t` is 64-bit and the largest possible value is below `2^48`, so plain `Nat`
arithmetic is exact. -/
def stateHash (s : VesselsState) : Nat :=
  (s.get 0 * type_max + s.get 1) * type_max + s.get 2

/-- Function `gcd(lhs, rhs)` from `utils.h` (Euclid on unsigned values). -/
def gcd2 (lhs rhs : Nat) : Nat :=
  if h : rhs = 0 then lhs else gcd2 rhs (lhs % rhs)
termination_by rhs
decreasing_by exact Nat.mod_lt _ (Nat.pos_of_ne_zero h)

/-- The three-argument `gcd` overload from `utils.h`: `gcd(gcd(lhs, rhs), last)`. -/
def gcd3 (a b c : Nat) : Nat := gcd2 (gcd2 a b) c

/-- The solvability pre-check of `main` (lines 258-260): it computes
`gcd(volumes.at(0), volumes.at(1), volumes.at(2))` and then evaluates
`target % volume_gcd` with no guard against a zero divisor; a modulo by zero is
undefined behavior in C++ and is modelled as `none`.  `some b` means the check
completed and printed "unsolvable" iff `b`. -/
def gcd_precheck (volumes : VesselsState) (target : Nat) : Option Bool :=
  let volume_gcd := gcd3 volumes.v0 volumes.v1 volumes.v2
  if volume_gcd = 0 then none
  else some (target % volume_gcd != 0)

/-- A history entry: a discovered state paired with the index of the entry that
discovered it (`INVALID_IDX = -1` for the root). -/
abbrev HEntry := VesselsState × Int

/-- Innermost loop of `solve_water`: walk the successor list of the entry at
index `ptr`; each state not yet visited is inserted into the visited set and
appended to the history, and the flag becomes `true` the moment such a state
contains the target (the C++ `return step`). -/
def pushSuccs (target : Nat) (ptr : Nat) :
    List VesselsState → List HEntry → List VesselsState →
    List HEntry × List VesselsState × Bool
  | [], hist, vis => (hist, vis, false)
  | s :: rest, hist, vis =>
    if s ∈ vis then pushSuccs target ptr rest hist vis
    else
      let hist' := hist ++ [(s, (ptr : Int))]
      let vis' := s :: vis
      if s.contains target then (hist', vis', true)
      else pushSuccs target ptr rest hist' vis'

/-- The `for (ptr = old_ptr; ptr < next_ptr; ++ptr)` loop of `solve_water`:
expand `cnt` history entries starting at index `ptr`. -/
def expandPtrs (target : Nat) (volumes : VesselsState) :
    Nat → Nat → List HEntry → List VesselsState →
    List HEntry × List VesselsState × Bool
  | _, 0, hist, vis => (hist, vis, false)
  | ptr, cnt+1, hist, vis =>
    let old_state := (hist.getD ptr (⟨0, 0, 0⟩, -1)).1
    match pushSuccs target ptr (old_state.next_states volumes) hist vis with
    | (hist', vis', true) => (hist', vis', true)
    | (hist', vis', false) => expandPtrs target volumes (ptr+1) cnt hist' vis'

/-- Result of a `solve_water` run: the returned value together with the final
history and visited set (the solver object's mutable members).  `res = none`
is the fuel-exhaustion artifact of the embedding; it is proved unreachable. -/
structure RunOut where
  res : Option Int
  hist : List HEntry
  vis : List VesselsState

/-- The `while (old_ptr != m_history.size())` loop of `solve_water`.  Each round
increments `step`, expands exactly the entries `[old_ptr, next_ptr)` discovered
in the previous round, and either returns `step` on a hit or advances `old_ptr`;
when the frontier pointer stops advancing it returns `-1`. -/
def solveLoop (target : Nat) (volumes : VesselsState) :
    Nat → Nat → Nat → List HEntry → List VesselsState → RunOut
  | 0, _, _, hist, vis => ⟨none, hist, vis⟩
  | fuel+1, step, old_ptr, hist, vis =>
    if old_ptr = hist.length then ⟨some (-1), hist, vis⟩
    else
      let step' := step + 1
      match expandPtrs target volumes old_ptr (hist.length - old_ptr) hist vis with
      | (hist', vis', true) => ⟨some (step' : Int), hist', vis'⟩
      | (hist', vis', false) => solveLoop target volumes fuel step' hist.length hist' vis'

/-- Fuel bounding the number of BFS rounds: there are at most
`(v0+1)*(v1+1)*(v2+1)` distinct in-bounds states, the history holds pairwise
distinct in-bounds states, and every continuing round grows it. -/
def roundFuel (volumes : VesselsState) : Nat :=
  (volumes.v0 + 1) * (volumes.v1 + 1) * (volumes.v2 + 1) + 1

/-- Body of `solve_water` for a nonzero target, after `init()`: the visited set is
seeded with the all-empty and the all-full states (`m_visited.emplace(0,0,0)`;
`m_visited.insert(m_volumes)`), the history with the root entry. -/
def solve_run (volumes : VesselsState) (target : Nat) : RunOut :=
  solveLoop target volumes (roundFuel volumes) 0 0
    [(⟨0, 0, 0⟩, -1)] [volumes, ⟨0, 0, 0⟩]

/-- Method `WaterPouringPuzzleSolver::solve_water(target)`: `some 0` immediately for
`target == 0`, otherwise the BFS outcome (`some (-1)` = no solution). -/
def solve_water (volumes : VesselsState) (target : Nat) : Option Int :=
  if target = 0 then some 0
  else (solve_run volumes target).res

/-- All three levels of `s` fit under the respective capacities. -/
def Bounded (s volumes : VesselsState) : Prop := ∀ i, s.get i ≤ volumes.get i

/-- The capacities are representable `uint16_t` values. -/
def Caps16 (volumes : VesselsState) : Prop := ∀ i, volumes.get i < W

instance (s volumes : VesselsState) : Decidable (Bounded s volumes) := by
  unfold Bounded; infer_instance

instance (volumes : VesselsState) : Decidable (Caps16 volumes) := by
  unfold Caps16; infer_instance

@[simp] theorem get_0 (s : VesselsState) : s.get 0 = s.v0 := rfl

@[simp] theorem get_1 (s : VesselsState) : s.get 1 = s.v1 := rfl

@[simp] theorem get_2 (s : VesselsState) : s.get 2 = s.v2 := rfl

theorem get_set (s : VesselsState) (i j : Fin 3) (x : Nat) :
    (s.set i x).get j = if j = i then x else s.get j := by
  fin_cases i <;> fin_cases j <;> simp [VesselsState.set, VesselsState.get]

theorem usub_eq (a b : Nat) (hba : b ≤ a) (ha : a < W) : usub a b = a - b := by
  unfold usub
  have h1 : a + W - b = (a - b) + W := by omega
  rw [h1, Nat.add_mod_right, Nat.mod_eq_of_lt (by omega)]

theorem uadd_eq (a b : Nat) (h : a + b < W) : uadd a b = a + b := by
  unfold uadd
  exact Nat.mod_eq_of_lt h

/-- With in-range inputs the `uint16_t` arithmetic of `transfer` never wraps, and
the function computes the textbook pour. -/
theorem transfer_eq (s volumes : VesselsState) (src dst : Fin 3)
    (hb : Bounded s volumes) (h16 : Caps16 volumes) (hne : src ≠ dst) :
    s.transfer src dst volumes =
      if s.get src ≤ volumes.get dst - s.get dst then
        (s.set dst (s.get dst + s.get src)).set src 0
      else
        (s.set dst (volumes.get dst)).set src
          (s.get src - (volumes.get dst - s.get dst)) := by
  have hd : s.get dst ≤ volumes.get dst := hb dst
  have hd16 : volumes.get dst < W := h16 dst
  have hs16 : s.get src < W := lt_of_le_of_lt (hb src) (h16 src)
  unfold VesselsState.transfer
  dsimp only
  rw [usub_eq _ _ hd hd16]
  by_cases hc : s.get src ≤ volumes.get dst - s.get dst
  · rw [if_pos hc, if_pos hc, uadd_eq _ _ (by omega)]
  · rw [if_neg hc, if_neg hc, uadd_eq _ _ (by omega)]
    have h1 : s.get dst + (volumes.get dst - s.get dst) = volumes.get dst := by omega
    rw [h1]
    have h2 : ((s.set dst (volumes.get dst)).get src) = s.get src := by
      rw [get_set, if_neg hne]
    rw [h2, usub_eq _ _ (by omega) hs16]

theorem mem_if_singleton {c : Prop} [Decidable c] {x t : VesselsState}
    (h : t ∈ if c then [x] else ([] : List VesselsState)) : c ∧ t = x := by
  by_cases hc : c
  · rw [if_pos hc] at h
    exact ⟨hc, List.mem_singleton.mp h⟩
  · rw [if_neg hc] at h
    exact absurd h (List.not_mem_nil t)

theorem mem_nextStatesAt {s volumes t : VesselsState} {src : Fin 3}
    (h : t ∈ nextStatesAt s volumes src) :
    (s.get src = 0 ∧ t = s.set src (volumes.get src)) ∨
    (s.get src ≠ 0 ∧ t = s.set src 0) ∨
    (∃ dst, src ≠ dst ∧ s.get dst < volumes.get dst ∧ 0 < s.get src ∧
      t = s.transfer src dst volumes) := by
  unfold nextStatesAt pourList at h
  simp only [List.mem_append] at h
  rcases h with (h | h) | (h | h) | h
  · exact Or.inl (mem_if_singleton h)
  · exact Or.inr (Or.inl (mem_if_singleton h))
  · obtain ⟨⟨h1, h2, h3⟩, h4⟩ := mem_if_singleton h
    exact Or.inr (Or.inr ⟨0, h1, h2, h3, h4⟩)
  · obtain ⟨⟨h1, h2, h3⟩, h4⟩ := mem_if_singleton h
    exact Or.inr (Or.inr ⟨1, h1, h2, h3, h4⟩)
  · obtain ⟨⟨h1, h2, h3⟩, h4⟩ := mem_if_singleton h
    exact Or.inr (Or.inr ⟨2, h1, h2, h3, h4⟩)

/-- Every successor is a Fill of an empty vessel, a Drain of a nonempty one, or a
guarded pour. -/
theorem mem_next_states {s volumes t : VesselsState}
    (h : t ∈ s.next_states volumes) :
    (∃ i, s.get i = 0 ∧ t = s.set i (volumes.get i)) ∨
    (∃ i, s.get i ≠ 0 ∧ t = s.set i 0) ∨
    (∃ src dst, src ≠ dst ∧ s.get dst < volumes.get dst ∧ 0 < s.get src ∧
      t = s.transfer src dst volumes) := by
  unfold VesselsState.next_states at h
  simp only [List.mem_append] at h
  rcases h with (h | h) | h
  all_goals
    rcases mem_nextStatesAt h with h' | h' | ⟨dst, h'⟩
  · exact Or.inl ⟨0, h'⟩
  · exact Or.inr (Or.inl ⟨0, h'⟩)
  · exact Or.inr (Or.inr ⟨0, dst, h'⟩)
  · exact Or.inl ⟨1, h'⟩
  · exact Or.inr (Or.inl ⟨1, h'⟩)
  · exact Or.inr (Or.inr ⟨1, dst, h'⟩)
  · exact Or.inl ⟨2, h'⟩
  · exact Or.inr (Or.inl ⟨2, h'⟩)
  · exact Or.inr (Or.inr ⟨2, dst, h'⟩)

/-- Successors of an in-bounds state are in bounds. -/
theorem next_states_bounded {volumes s t : VesselsState} (h16 : Caps16 volumes)
    (hb : Bounded s volumes) (ht : t ∈ s.next_states volumes) :
    Bounded t volumes := by
  rcases mem_next_states ht with ⟨i, hi, rfl⟩ | ⟨i, hi, rfl⟩ |
    ⟨src, dst, hne, hdst, hsrc, rfl⟩
  · intro j
    rw [get_set]
    by_cases hj : j = i
    · rw [if_pos hj, hj]
    · rw [if_neg hj]; exact hb j
  · intro j
    rw [get_set]
    by_cases hj : j = i
    · rw [if_pos hj]; exact Nat.zero_le _
    · rw [if_neg hj]; exact hb j
  · rw [transfer_eq s volumes src dst hb h16 hne]
    have hbs := hb src
    have hbd := hb dst
    by_cases hc : s.get src ≤ volumes.get dst - s.get dst
    · rw [if_pos hc]
      intro j
      rw [get_set, get_set]
      by_cases hj1 : j = src
      · rw [if_pos hj1, hj1]; exact Nat.zero_le _
      · rw [if_neg hj1]
        by_cases hj2 : j = dst
        · rw [if_pos hj2, hj2]; omega
        · rw [if_neg hj2]; exact hb j
    · rw [if_neg hc]
      intro j
      rw [get_set, get_set]
      by_cases hj1 : j = src
      · rw [if_pos hj1, hj1]; omega
      · rw [if_neg hj1]
        by_cases hj2 : j = dst
        · rw [if_pos hj2, hj2]
        · rw [if_neg hj2]; exact hb j

/-- States reachable by iterating `next_states` from the all-empty state
(the graph the specification's claims quantify over). -/
inductive Reach (volumes : VesselsState) : Nat → VesselsState → Prop
  | zero : Reach volumes 0 ⟨0, 0, 0⟩
  | succ {n : Nat} {s t : VesselsState} :
      Reach volumes n s → t ∈ s.next_states volumes → Reach volumes (n+1) t

theorem reach_bounded {volumes : VesselsState} (h16 : Caps16 volumes)
    {n : Nat} {s : VesselsState} (h : Reach volumes n s) : Bounded s volumes := by
  induction h with
  | zero => intro i; fin_cases i <;> exact Nat.zero_le _
  | succ _ hmem ih => exact next_states_bounded h16 ih hmem

/-- C3: every state reachable from the all-empty state by repeated application of
`next_states` has each level between 0 and the corresponding capacity, and
`next_states` maps states satisfying this bound to states satisfying it. -/
theorem claim_c3_reachable_bounded (volumes : VesselsState) (h16 : Caps16 volumes) :
    (∀ n s, Reach volumes n s → Bounded s volumes) ∧
    (∀ s t, Bounded s volumes → t ∈ s.next_states volumes → Bounded t volumes) :=
  ⟨fun _ _ h => reach_bounded h16 h,
   fun _ _ hb ht => next_states_bounded h16 hb ht⟩

/-- Witness for C3 at capacities (3, 5, 8). -/
theorem claim_c3_witness :
    (∀ n s, Reach ⟨3, 5, 8⟩ n s → Bounded s ⟨3, 5, 8⟩) ∧
    (∀ s t, Bounded s ⟨3, 5, 8⟩ → t ∈ s.next_states ⟨3, 5, 8⟩ →
      Bounded t ⟨3, 5, 8⟩) :=
  claim_c3_reachable_bounded ⟨3, 5, 8⟩ (by decide)

/-- C4: for an in-bounds state and distinct indices with a nonempty source and a
non-full destination, `transfer` moves everything when it fits and otherwise
tops up the destination, removing exactly the free space from the source; the
third vessel is untouched. -/
theorem claim_c4_transfer (volumes s : VesselsState) (src dst : Fin 3)
    (h16 : Caps16 volumes) (hb : Bounded s volumes) (hne : src ≠ dst)
    (hsrc : 0 < s.get src) (hdst : s.get dst < volumes.get dst) :
    ((s.get src ≤ volumes.get dst - s.get dst →
        (s.transfer src dst volumes).get src = 0 ∧
        (s.transfer src dst volumes).get dst = s.get dst + s.get src) ∧
     (volumes.get dst - s.get dst < s.get src →
        (s.transfer src dst volumes).get dst = volumes.get dst ∧
        (s.transfer src dst volumes).get src =
          s.get src - (volumes.get dst - s.get dst))) ∧
    (∀ i, i ≠ src → i ≠ dst → (s.transfer src dst volumes).get i = s.get i) := by
  rw [transfer_eq s volumes src dst hb h16 hne]
  refine ⟨⟨fun hc => ?_, fun hc => ?_⟩, fun i hi1 hi2 => ?_⟩
  · rw [if_pos hc]
    constructor
    · rw [get_set, if_pos rfl]
    · rw [get_set, if_neg (Ne.symm hne), get_set, if_pos rfl]
  · rw [if_neg (by omega)]
    constructor
    · rw [get_set, if_neg (Ne.symm hne), get_set, if_pos rfl]
    · rw [get_set, if_pos rfl]
  · by_cases hc : s.get src ≤ volumes.get dst - s.get dst
    · rw [if_pos hc, get_set, if_neg hi1, get_set, if_neg hi2]
    · rw [if_neg hc, get_set, if_neg hi1, get_set, if_neg hi2]

/-- Witness for C4: capacities (3, 5, 8), state (3, 4, 0), pouring vessel 0 into
vessel 1 (only 1 unit fits). -/
theorem claim_c4_witness :
    (((⟨3, 4, 0⟩ : VesselsState).get 0 ≤
        (⟨3, 5, 8⟩ : VesselsState).get 1 - (⟨3, 4, 0⟩ : VesselsState).get 1 →
        ((⟨3, 4, 0⟩ : VesselsState).transfer 0 1 ⟨3, 5, 8⟩).get 0 = 0 ∧
        ((⟨3, 4, 0⟩ : VesselsState).transfer 0 1 ⟨3, 5, 8⟩).get 1 =
          (⟨3, 4, 0⟩ : VesselsState).get 1 + (⟨3, 4, 0⟩ : VesselsState).get 0) ∧
     ((⟨3, 5, 8⟩ : VesselsState).get 1 - (⟨3, 4, 0⟩ : VesselsState).get 1 <
        (⟨3, 4, 0⟩ : VesselsState).get 0 →
        ((⟨3, 4, 0⟩ : VesselsState).transfer 0 1 ⟨3, 5, 8⟩).get 1 =
          (⟨3, 5, 8⟩ : VesselsState).get 1 ∧
        ((⟨3, 4, 0⟩ : VesselsState).transfer 0 1 ⟨3, 5, 8⟩).get 0 =
          (⟨3, 4, 0⟩ : VesselsState).get 0 -
            ((⟨3, 5, 8⟩ : VesselsState).get 1 - (⟨3, 4, 0⟩ : VesselsState).get 1))) ∧
    (∀ i, i ≠ 0 → i ≠ 1 →
      ((⟨3, 4, 0⟩ : VesselsState).transfer 0 1 ⟨3, 5, 8⟩).get i =
        (⟨3, 4, 0⟩ : VesselsState).get i) :=
  claim_c4_transfer ⟨3, 5, 8⟩ ⟨3, 4, 0⟩ 0 1 (by decide) (by decide) (by decide)
    (by decide) (by decide)

/-- Total amount of water held by the three vessels. -/
def vtotal (s : VesselsState) : Nat := s.v0 + s.v1 + s.v2

/-- C5: each successor produced by `next_states` either comes from a Fill of an
empty vessel and raises the total by that capacity, from a Drain and lowers it
by the drained level, or from a pour and leaves the total unchanged. -/
theorem claim_c5_volume_conservation (volumes s t : VesselsState)
    (h16 : Caps16 volumes) (hb : Bounded s volumes)
    (ht : t ∈ s.next_states volumes) :
    (∃ i, s.get i = 0 ∧ t = s.set i (volumes.get i) ∧
      vtotal t = vtotal s + volumes.get i) ∨
    (∃ i, s.get i ≠ 0 ∧ t = s.set i 0 ∧ vtotal t + s.get i = vtotal s) ∨
    (∃ src dst, src ≠ dst ∧ s.get dst < volumes.get dst ∧ 0 < s.get src ∧
      t = s.transfer src dst volumes ∧ vtotal t = vtotal s) := by
  rcases mem_next_states ht with ⟨i, hi, rfl⟩ | ⟨i, hi, rfl⟩ |
    ⟨src, dst, hne, hdst, hsrc, rfl⟩
  · refine Or.inl ⟨i, hi, rfl, ?_⟩
    fin_cases i <;> simp [VesselsState.set, vtotal] at hi ⊢ <;> omega
  · refine Or.inr (Or.inl ⟨i, hi, rfl, ?_⟩)
    fin_cases i <;> simp [VesselsState.set, vtotal] at hi ⊢ <;> omega
  · refine Or.inr (Or.inr ⟨src, dst, hne, hdst, hsrc, rfl, ?_⟩)
    have hbs := hb src
    have hbd := hb dst
    rw [transfer_eq s volumes src dst hb h16 hne]
    by_cases hc : s.get src ≤ volumes.get dst - s.get dst
    · rw [if_pos hc]
      fin_cases src <;> fin_cases dst <;> simp_all [VesselsState.set, vtotal] <;> omega
    · rw [if_neg hc]
      fin_cases src <;> fin_cases dst <;> simp_all [VesselsState.set, vtotal] <;> omega

/-- Witness for C5 at capacities (3, 5, 8), expanding the state (3, 4, 0) and its
successor (0, 4, 3) (pour vessel 0 into vessel 2). -/
theorem claim_c5_witness :
    (∃ i, (⟨3, 4, 0⟩ : VesselsState).get i = 0 ∧
      (⟨0, 4, 3⟩ : VesselsState) = VesselsState.set ⟨3, 4, 0⟩ i ((⟨3, 5, 8⟩ : VesselsState).get i) ∧
      vtotal ⟨0, 4, 3⟩ = vtotal ⟨3, 4, 0⟩ + (⟨3, 5, 8⟩ : VesselsState).get i) ∨
    (∃ i, (⟨3, 4, 0⟩ : VesselsState).get i ≠ 0 ∧
      (⟨0, 4, 3⟩ : VesselsState) = VesselsState.set ⟨3, 4, 0⟩ i 0 ∧
      vtotal ⟨0, 4, 3⟩ + (⟨3, 4, 0⟩ : VesselsState).get i = vtotal ⟨3, 4, 0⟩) ∨
    (∃ src dst, src ≠ dst ∧
      (⟨3, 4, 0⟩ : VesselsState).get dst < (⟨3, 5, 8⟩ : VesselsState).get dst ∧
      0 < (⟨3, 4, 0⟩ : VesselsState).get src ∧
      (⟨0, 4, 3⟩ : VesselsState) = VesselsState.transfer ⟨3, 4, 0⟩ src dst ⟨3, 5, 8⟩ ∧
      vtotal ⟨0, 4, 3⟩ = vtotal ⟨3, 4, 0⟩) :=
  claim_c5_volume_conservation ⟨3, 5, 8⟩ ⟨3, 4, 0⟩ ⟨0, 4, 3⟩ (by decide) (by decide)
    (by decide)

/-- C9 counterexample: the hash base is `type_max<water>() = 65535`, not 65536,
so the hash disagrees with the claimed formula at (1, 0, 0), and it collides on
the distinct in-range states (0, 1, 0) and (0, 0, 65535). -/
theorem claim_c9_counterexample :
    stateHash ⟨1, 0, 0⟩ ≠ (1 * 65536 + 0) * 65536 + 0 ∧
    (⟨0, 1, 0⟩ : VesselsState) ≠ ⟨0, 0, 65535⟩ ∧
    stateHash ⟨0, 1, 0⟩ = stateHash ⟨0, 0, 65535⟩ ∧
    (∀ i, (⟨0, 1, 0⟩ : VesselsState).get i < W) ∧
    (∀ i, (⟨0, 0, 65535⟩ : VesselsState).get i < W) := by
  refine ⟨by decide, by decide, by decide, by decide, by decide⟩

/-- C9 (amended): the hash combines the levels positionally with base
`type_max<water>() = 65535` (the maximum value itself, not one above it), and it
is collision-free over states whose levels are strictly below 65535. -/
theorem claim_c9_hash (s t : VesselsState)
    (hs : ∀ i, s.get i < type_max) (ht : ∀ i, t.get i < type_max)
    (h : stateHash s = stateHash t) :
    stateHash s = (s.get 0 * 65535 + s.get 1) * 65535 + s.get 2 ∧ s = t := by
  constructor
  · rfl
  · have hs1 := hs 1
    have hs2 := hs 2
    have ht1 := ht 1
    have ht2 := ht 2
    unfold stateHash type_max at h hs1 hs2 ht1 ht2
    have hexp : ∀ x y z : Nat,
        (x * 65535 + y) * 65535 + z = x * 4294836225 + y * 65535 + z := by
      intro x y z; ring
    rw [hexp, hexp] at h
    cases s; cases t
    simp only [get_0, get_1, get_2] at h hs1 hs2 ht1 ht2 ⊢
    have := VesselsState.mk.injEq
    simp only [VesselsState.mk.injEq]
    omega

/-- Witness for the amended C9 at the state (1, 2, 3). -/
theorem claim_c9_witness :
    stateHash ⟨1, 2, 3⟩ = ((⟨1, 2, 3⟩ : VesselsState).get 0 * 65535 +
      (⟨1, 2, 3⟩ : VesselsState).get 1) * 65535 + (⟨1, 2, 3⟩ : VesselsState).get 2 ∧
    (⟨1, 2, 3⟩ : VesselsState) = ⟨1, 2, 3⟩ :=
  claim_c9_hash ⟨1, 2, 3⟩ ⟨1, 2, 3⟩ (by decide) (by decide) rfl

/-- C6: with a zero target `solve_water` answers `some 0` at once, for every
capacities triple (the all-zero triple included), and that outcome is distinct
from the unsolvable marker; by definition the search loop is never entered. -/
theorem claim_c6_zero_target (volumes : VesselsState) :
    solve_water volumes 0 = some 0 ∧ solve_water volumes 0 ≠ some (-1) := by
  constructor
  · simp [solve_water]
  · simp [solve_water]

/-- Reachability avoiding ever stepping into the all-full state (the state equal
to `volumes`), which `solve_water` pre-marks as visited. -/
inductive ReachA (volumes : VesselsState) : Nat → VesselsState → Prop
  | zero : ReachA volumes 0 ⟨0, 0, 0⟩
  | succ {n : Nat} {s t : VesselsState} :
      ReachA volumes n s → t ∈ s.next_states volumes → t ≠ volumes →
      ReachA volumes (n+1) t

/-- Reachability avoiding both pre-visited states, the all-full state and the
all-empty root: exactly the graph the search can discover. -/
inductive ReachAR (volumes : VesselsState) : Nat → VesselsState → Prop
  | zero : ReachAR volumes 0 ⟨0, 0, 0⟩
  | succ {n : Nat} {s t : VesselsState} :
      ReachAR volumes n s → t ∈ s.next_states volumes → t ≠ volumes →
      t ≠ ⟨0, 0, 0⟩ → ReachAR volumes (n+1) t

theorem reachA_reach {volumes : VesselsState} {n : Nat} {s : VesselsState}
    (h : ReachA volumes n s) : Reach volumes n s := by
  induction h with
  | zero => exact Reach.zero
  | succ _ hedge _ ih => exact Reach.succ ih hedge

theorem reachAR_reachA {volumes : VesselsState} {n : Nat} {s : VesselsState}
    (h : ReachAR volumes n s) : ReachA volumes n s := by
  induction h with
  | zero => exact ReachA.zero
  | succ _ hedge hav _ ih => exact ReachA.succ ih hedge hav

theorem reachAR_bounded {volumes : VesselsState} (h16 : Caps16 volumes)
    {n : Nat} {s : VesselsState} (h : ReachAR volumes n s) : Bounded s volumes :=
  reach_bounded h16 (reachA_reach (reachAR_reachA h))

theorem reachAR_ne {volumes : VesselsState} {n : Nat} {t : VesselsState}
    (h : ReachAR volumes (n+1) t) : t ≠ volumes ∧ t ≠ ⟨0, 0, 0⟩ := by
  cases h with
  | succ _ _ hav hroot => exact ⟨hav, hroot⟩

/-- A path that avoids the all-full state can be shortened to one that also never
re-enters the root: drop everything before the last visit to the root. -/
theorem reachA_to_AR {volumes : VesselsState} {n : Nat} {t : VesselsState}
    (h : ReachA volumes n t) (hne : t ≠ ⟨0, 0, 0⟩) :
    ∃ m, m ≤ n ∧ ReachAR volumes m t := by
  induction h with
  | zero => exact absurd rfl hne
  | @succ n s t hs hedge havoid ih =>
    by_cases hs0 : s = ⟨0, 0, 0⟩
    · subst hs0
      exact ⟨1, by omega, ReachAR.succ ReachAR.zero hedge havoid hne⟩
    · obtain ⟨m, hm, har⟩ := ih hs0
      exact ⟨m + 1, by omega, ReachAR.succ har hedge havoid hne⟩

/-- State `s` is discovered by the search in round exactly `n`: reachable in the search
graph in `n` steps and in no fewer. -/
def Layer (volumes : VesselsState) (n : Nat) (s : VesselsState) : Prop :=
  ReachAR volumes n s ∧ ∀ m, m < n → ¬ ReachAR volumes m s

theorem exists_layer {volumes : VesselsState} {n : Nat} {s : VesselsState}
    (h : ReachAR volumes n s) : ∃ m, m ≤ n ∧ Layer volumes m s := by
  induction n using Nat.strong_induction_on with
  | _ n ih =>
    by_cases hex : ∃ m, m < n ∧ ReachAR volumes m s
    · obtain ⟨m, hmn, hm⟩ := hex
      obtain ⟨k, hk, hl⟩ := ih m hmn hm
      exact ⟨k, by omega, hl⟩
    · push_neg at hex
      exact ⟨n, le_refl _, h, fun m hm => hex m hm⟩

theorem layer_unique {volumes : VesselsState} {n m : Nat} {s : VesselsState}
    (h1 : Layer volumes n s) (h2 : Layer volumes m s) : n = m := by
  rcases lt_trichotomy n m with h | h | h
  · exact absurd h1.1 (h2.2 n h)
  · exact h
  · exact absurd h2.1 (h1.2 m h)

/-- A state first discovered in round `n+1` has a predecessor first discovered in
round `n`. -/
theorem layer_pred {volumes : VesselsState} {n : Nat} {t : VesselsState}
    (h : Layer volumes (n+1) t) :
    ∃ u, Layer volumes n u ∧ t ∈ u.next_states volumes ∧ t ≠ volumes ∧
      t ≠ ⟨0, 0, 0⟩ := by
  obtain ⟨h1, hmin⟩ := h
  cases h1 with
  | @succ _ u _ hu hedge hav hroot =>
    refine ⟨u, ⟨hu, fun m hm hru => ?_⟩, hedge, hav, hroot⟩
    exact hmin (m+1) (by omega) (ReachAR.succ hru hedge hav hroot)

theorem layer_below {volumes : VesselsState} :
    ∀ (n : Nat) (s : VesselsState), Layer volumes n s →
      ∀ k, k ≤ n → ∃ t, Layer volumes k t := by
  intro n
  induction n with
  | zero =>
    intro s h k hk
    have hk0 : k = 0 := by omega
    subst hk0
    exact ⟨s, h⟩
  | succ n ih =>
    intro s h k hk
    by_cases hkn : k = n + 1
    · subst hkn
      exact ⟨s, h⟩
    · obtain ⟨u, hu, _, _, _⟩ := layer_pred h
      exact ih u hu k (by omega)

/-- The states stored in a history list. -/
def histStates (hist : List HEntry) : List VesselsState := hist.map Prod.fst

/-- The default entry handed to `List.getD` (never actually used: the solver only
reads valid indices). -/
abbrev dfltEntry : HEntry := (⟨0, 0, 0⟩, -1)

theorem histStates_append (a b : List HEntry) :
    histStates (a ++ b) = histStates a ++ histStates b := by
  unfold histStates
  exact List.map_append _ a b

theorem mem_histStates_append {a b : List HEntry} {s : VesselsState} :
    s ∈ histStates (a ++ b) ↔ s ∈ histStates a ∨ s ∈ histStates b := by
  rw [histStates_append, List.mem_append]

theorem getD_mem_histStates {hist : List HEntry} {i : Nat} (h : i < hist.length) :
    (hist.getD i dfltEntry).1 ∈ histStates hist := by
  rw [List.getD_eq_getElem hist dfltEntry h]
  exact List.mem_map_of_mem Prod.fst (List.getElem_mem h)

theorem getD_append_left {a b : List HEntry} {i : Nat} (h : i < a.length) :
    (a ++ b).getD i dfltEntry = a.getD i dfltEntry := by
  rw [List.getD_eq_getElem _ dfltEntry (by rw [List.length_append]; omega),
    List.getD_eq_getElem a dfltEntry h]
  exact List.getElem_append_left h

theorem getD_append_right (a b : List HEntry) (j : Nat) :
    (a ++ b).getD (a.length + j) dfltEntry = b.getD j dfltEntry := by
  by_cases h : j < b.length
  · rw [List.getD_eq_getElem _ dfltEntry (by rw [List.length_append]; omega),
      List.getD_eq_getElem b dfltEntry h]
    rw [List.getElem_append_right (by omega)]
    congr 1
    omega
  · rw [List.getD_eq_default _ dfltEntry (by rw [List.length_append]; omega),
      List.getD_eq_default b dfltEntry (by omega)]

theorem mem_histStates_getD {l : List HEntry} {s : VesselsState}
    (h : s ∈ histStates l) :
    ∃ j, j < l.length ∧ (l.getD j dfltEntry).1 = s := by
  unfold histStates at h
  obtain ⟨p, hp, hps⟩ := List.mem_map.mp h
  obtain ⟨j, hj, hjp⟩ := List.getElem_of_mem hp
  exact ⟨j, hj, by rw [List.getD_eq_getElem l dfltEntry hj, hjp, hps]⟩

/-- A duplicate-free list of in-bounds states has at most
`(v0+1)*(v1+1)*(v2+1)` elements. -/
theorem length_le_of_nodup_bounded (volumes : VesselsState)
    (l : List VesselsState) (hn : l.Nodup) (hb : ∀ s ∈ l, Bounded s volumes) :
    l.length ≤ (volumes.v0 + 1) * (volumes.v1 + 1) * (volumes.v2 + 1) := by
  classical
  have hcard : l.toFinset.card = l.length := List.toFinset_card_of_nodup hn
  set f : VesselsState → Nat × Nat × Nat := fun s => (s.v0, s.v1, s.v2) with hf
  have hinj : Function.Injective f := by
    intro a b hab
    cases a
    cases b
    simp only [hf, Prod.mk.injEq] at hab
    simp [VesselsState.mk.injEq]
    exact hab
  set T : Finset (Nat × Nat × Nat) :=
    (Finset.range (volumes.v0 + 1)) ×ˢ
      ((Finset.range (volumes.v1 + 1)) ×ˢ (Finset.range (volumes.v2 + 1))) with hT
  have hsub : l.toFinset.image f ⊆ T := by
    intro x hx
    obtain ⟨s, hs, rfl⟩ := Finset.mem_image.mp hx
    have hbs := hb s (List.mem_toFinset.mp hs)
    have h0 := hbs 0
    have h1 := hbs 1
    have h2 := hbs 2
    simp only [get_0, get_1, get_2] at h0 h1 h2
    rw [hT]
    have hfs : f s = (s.v0, s.v1, s.v2) := rfl
    rw [hfs]
    simp only [Finset.mem_product, Finset.mem_range]
    exact ⟨by omega, by omega, by omega⟩
  have hTcard : T.card =
      (volumes.v0 + 1) * ((volumes.v1 + 1) * (volumes.v2 + 1)) := by
    rw [hT, Finset.card_product, Finset.card_product]
    simp
  calc l.length = l.toFinset.card := hcard.symm
    _ = (l.toFinset.image f).card := (Finset.card_image_of_injective _ hinj).symm
    _ ≤ T.card := Finset.card_le_card hsub
    _ = (volumes.v0 + 1) * ((volumes.v1 + 1) * (volumes.v2 + 1)) := hTcard
    _ = (volumes.v0 + 1) * (volumes.v1 + 1) * (volumes.v2 + 1) := by ring

/-- Complete characterization of one `pushSuccs` run: it appends a batch `Δ` of
previously unvisited successors to the history, pushes the same states onto
the visited list, stops with `true` the moment an appended state contains the
target, and otherwise processes (and thereby visits) every successor. -/
theorem pushSuccs_spec (target ptr : Nat) :
    ∀ (succs : List VesselsState) (hist : List HEntry) (vis : List VesselsState),
    ∃ (Δ : List HEntry) (found : Bool),
      pushSuccs target ptr succs hist vis =
        (hist ++ Δ, (Δ.map Prod.fst).reverse ++ vis, found) ∧
      (∀ p ∈ Δ, p.1 ∈ succs ∧ p.1 ∉ vis) ∧
      (Δ.map Prod.fst).Nodup ∧
      (found = false →
        (∀ p ∈ Δ, p.1.contains target = false) ∧
        (∀ s ∈ succs, s ∈ vis ∨ s ∈ Δ.map Prod.fst)) ∧
      (found = true → ∃ p ∈ Δ, p.1.contains target = true) := by
  intro succs
  induction succs with
  | nil =>
    intro hist vis
    refine ⟨[], false, by simp [pushSuccs], by simp, by simp, fun _ => ⟨by simp, by simp⟩,
      fun h => absurd h (by simp)⟩
  | cons s rest ih =>
    intro hist vis
    by_cases hv : s ∈ vis
    · obtain ⟨Δ, found, heq, hmem, hnd, hff, hft⟩ := ih hist vis
      refine ⟨Δ, found, ?_, ?_, hnd, ?_, hft⟩
      · rw [pushSuccs, if_pos hv]
        exact heq
      · intro p hp
        exact ⟨List.mem_cons_of_mem _ (hmem p hp).1, (hmem p hp).2⟩
      · intro hf
        refine ⟨(hff hf).1, fun t htm => ?_⟩
        rcases List.mem_cons.mp htm with rfl | htm'
        · exact Or.inl hv
        · exact (hff hf).2 t htm'
    · cases hc : s.contains target with
      | true =>
        have hstep : pushSuccs target ptr (s :: rest) hist vis =
            (hist ++ [(s, (ptr : Int))], s :: vis, true) := by
          rw [pushSuccs, if_neg hv]
          dsimp only
          simp only [hc]
          simp
        refine ⟨[(s, (ptr : Int))], true, ?_, ?_, by simp, ?_, ?_⟩
        · rw [hstep]
          simp
        · intro p hp
          rw [List.mem_singleton] at hp
          subst hp
          exact ⟨List.mem_cons_self _ _, hv⟩
        · intro h
          exact absurd h (by simp)
        · intro _
          exact ⟨(s, (ptr : Int)), List.mem_singleton.mpr rfl, hc⟩
      | false =>
        have hstep : pushSuccs target ptr (s :: rest) hist vis =
            pushSuccs target ptr rest (hist ++ [(s, (ptr : Int))]) (s :: vis) := by
          rw [pushSuccs, if_neg hv]
          dsimp only
          simp only [hc]
          simp
        obtain ⟨Δ', found, heq, hmem, hnd, hff, hft⟩ :=
          ih (hist ++ [(s, (ptr : Int))]) (s :: vis)
        refine ⟨(s, (ptr : Int)) :: Δ', found, ?_, ?_, ?_, ?_, ?_⟩
        · rw [hstep, heq]
          simp [List.append_assoc]
        · intro p hp
          rcases List.mem_cons.mp hp with rfl | hp'
          · exact ⟨List.mem_cons_self _ _, hv⟩
          · refine ⟨List.mem_cons_of_mem _ (hmem p hp').1, fun hpv => ?_⟩
            exact (hmem p hp').2 (List.mem_cons_of_mem _ hpv)
        · rw [List.map_cons]
          refine List.nodup_cons.mpr ⟨fun hs => ?_, hnd⟩
          obtain ⟨p, hp, hps⟩ := List.mem_map.mp hs
          exact (hmem p hp).2 (by rw [hps]; exact List.mem_cons_self _ _)
        · intro hf
          refine ⟨fun p hp => ?_, fun t htm => ?_⟩
          · rcases List.mem_cons.mp hp with rfl | hp'
            · exact hc
            · exact (hff hf).1 p hp'
          · rcases List.mem_cons.mp htm with rfl | htm'
            · exact Or.inr (by rw [List.map_cons]; exact List.mem_cons_self _ _)
            · rcases (hff hf).2 t htm' with hvv | hΔ
              · rcases List.mem_cons.mp hvv with rfl | hvv'
                · exact Or.inr (by rw [List.map_cons]; exact List.mem_cons_self _ _)
                · exact Or.inl hvv'
              · exact Or.inr (by rw [List.map_cons]; exact List.mem_cons_of_mem _ hΔ)
        · intro hf
          obtain ⟨p, hp, hpc⟩ := hft hf
          exact ⟨p, List.mem_cons_of_mem _ hp, hpc⟩

/-- One BFS round (the inner `for` loop over `[ptr, ptr + cnt)`): expanding a
frontier of round-`r` states appends exactly previously undiscovered round-`(r+1)`
states, and when no appended state contains the target, every round-`(r+1)`
successor of the processed range ends up in the history. -/
theorem expandPtrs_inv (volumes : VesselsState) (target : Nat) (r : Nat)
    (h16 : Caps16 volumes) :
    ∀ (cnt ptr : Nat) (hist : List HEntry) (vis : List VesselsState),
    ptr + cnt ≤ hist.length →
    (∀ s, s ∈ vis ↔ (s ∈ histStates hist ∨ s = volumes ∨ s = ⟨0, 0, 0⟩)) →
    (∀ s ∈ histStates hist, ∃ m, m ≤ r + 1 ∧ Layer volumes m s) →
    (∀ i, ptr ≤ i → i < ptr + cnt → Layer volumes r ((hist.getD i dfltEntry).1)) →
    (∀ m s, m ≤ r → Layer volumes m s → s ∈ histStates hist) →
    (∀ s ∈ histStates hist, s.contains target = false) →
    (histStates hist).Nodup →
    (∀ s ∈ histStates hist, Bounded s volumes) →
    ∃ (Δ : List HEntry) (vis' : List VesselsState) (found : Bool),
      expandPtrs target volumes ptr cnt hist vis = (hist ++ Δ, vis', found) ∧
      (∀ s, s ∈ vis' ↔ (s ∈ histStates (hist ++ Δ) ∨ s = volumes ∨ s = ⟨0, 0, 0⟩)) ∧
      (∀ s ∈ histStates (hist ++ Δ), ∃ m, m ≤ r + 1 ∧ Layer volumes m s) ∧
      (∀ p ∈ Δ, Layer volumes (r + 1) p.1) ∧
      (histStates (hist ++ Δ)).Nodup ∧
      (∀ s ∈ histStates (hist ++ Δ), Bounded s volumes) ∧
      (found = false →
        (∀ s ∈ histStates (hist ++ Δ), s.contains target = false) ∧
        (∀ w, Layer volumes (r + 1) w →
          (∃ i, ptr ≤ i ∧ i < ptr + cnt ∧
            w ∈ VesselsState.next_states (hist.getD i dfltEntry).1 volumes) →
          w ∈ histStates (hist ++ Δ))) ∧
      (found = true → ∃ p ∈ Δ, p.1.contains target = true) := by
  intro cnt
  induction cnt with
  | zero =>
    intro ptr hist vis _ hvis hsound _ _ hnohit hnodup hbdd
    refine ⟨[], vis, false, by simp [expandPtrs], ?_, ?_, by simp, ?_, ?_, ?_, ?_⟩
    · simpa using hvis
    · simpa using hsound
    · simpa using hnodup
    · simpa using hbdd
    · intro _
      refine ⟨by simpa using hnohit, fun w _ hw => ?_⟩
      obtain ⟨i, hi1, hi2, _⟩ := hw
      omega
    · intro h
      exact absurd h (by simp)
  | succ cnt ih =>
    intro ptr hist vis hlen hvis hsound hfr hcomp hnohit hnodup hbdd
    have hptr : ptr < hist.length := by omega
    have hu_mem : (hist.getD ptr dfltEntry).1 ∈ histStates hist :=
      getD_mem_histStates hptr
    have hu_layer : Layer volumes r (hist.getD ptr dfltEntry).1 :=
      hfr ptr (le_refl _) (by omega)
    have hu_bdd : Bounded (hist.getD ptr dfltEntry).1 volumes := hbdd _ hu_mem
    obtain ⟨Δ₁, found₁, heq₁, hmem₁, hnd₁, hff₁, hft₁⟩ :=
      pushSuccs_spec target ptr
        ((hist.getD ptr dfltEntry).1.next_states volumes) hist vis
    have hΔ₁ : ∀ p ∈ Δ₁, Layer volumes (r + 1) p.1 ∧ p.1 ∉ histStates hist ∧
        p.1 ∉ vis := by
      intro p hp
      obtain ⟨hsucc, hnvis⟩ := hmem₁ p hp
      have hnh : p.1 ∉ histStates hist :=
        fun hm => hnvis ((hvis p.1).mpr (Or.inl hm))
      have hne_v : p.1 ≠ volumes :=
        fun he => hnvis ((hvis p.1).mpr (Or.inr (Or.inl he)))
      have hne_r : p.1 ≠ ⟨0, 0, 0⟩ :=
        fun he => hnvis ((hvis p.1).mpr (Or.inr (Or.inr he)))
      have hRA : ReachAR volumes (r + 1) p.1 :=
        ReachAR.succ hu_layer.1 hsucc hne_v hne_r
      refine ⟨⟨hRA, fun m hm hr => ?_⟩, hnh, hnvis⟩
      obtain ⟨k, hk, hlk⟩ := exists_layer hr
      exact hnh (hcomp k p.1 (by omega) hlk)
    have hvis₁ : ∀ s, s ∈ (Δ₁.map Prod.fst).reverse ++ vis ↔
        (s ∈ histStates (hist ++ Δ₁) ∨ s = volumes ∨ s = ⟨0, 0, 0⟩) := by
      intro s
      rw [List.mem_append, List.mem_reverse, mem_histStates_append]
      constructor
      · rintro (hs | hs)
        · exact Or.inl (Or.inr hs)
        · rcases (hvis s).mp hs with hm | hm
          · exact Or.inl (Or.inl hm)
          · exact Or.inr hm
      · rintro ((hs | hs) | hs)
        · exact Or.inr ((hvis s).mpr (Or.inl hs))
        · exact Or.inl hs
        · exact Or.inr ((hvis s).mpr (Or.inr hs))
    have hsound₁ : ∀ s ∈ histStates (hist ++ Δ₁),
        ∃ m, m ≤ r + 1 ∧ Layer volumes m s := by
      intro s hs
      rcases mem_histStates_append.mp hs with hs | hs
      · exact hsound s hs
      · obtain ⟨p, hp, rfl⟩ := List.mem_map.mp hs
        exact ⟨r + 1, le_refl _, (hΔ₁ p hp).1⟩
    have hnodup₁ : (histStates (hist ++ Δ₁)).Nodup := by
      rw [histStates_append]
      refine List.nodup_append.mpr ⟨hnodup, hnd₁, fun x hx hx' => ?_⟩
      obtain ⟨p, hp, rfl⟩ := List.mem_map.mp hx'
      exact (hΔ₁ p hp).2.1 hx
    have hbdd₁ : ∀ s ∈ histStates (hist ++ Δ₁), Bounded s volumes := by
      intro s hs
      rcases mem_histStates_append.mp hs with hs | hs
      · exact hbdd s hs
      · obtain ⟨p, hp, rfl⟩ := List.mem_map.mp hs
        exact next_states_bounded h16 hu_bdd (hmem₁ p hp).1
    cases found₁ with
    | true =>
      have heval : expandPtrs target volumes ptr (cnt + 1) hist vis =
          (hist ++ Δ₁, (Δ₁.map Prod.fst).reverse ++ vis, true) := by
        rw [expandPtrs, heq₁]
      refine ⟨Δ₁, (Δ₁.map Prod.fst).reverse ++ vis, true, heval, hvis₁, hsound₁,
        fun p hp => (hΔ₁ p hp).1, hnodup₁, hbdd₁, ?_, fun _ => hft₁ rfl⟩
      intro h
      exact absurd h (by simp)
    | false =>
      have hnohit₁ : ∀ s ∈ histStates (hist ++ Δ₁), s.contains target = false := by
        intro s hs
        rcases mem_histStates_append.mp hs with hs | hs
        · exact hnohit s hs
        · obtain ⟨p, hp, rfl⟩ := List.mem_map.mp hs
          exact (hff₁ rfl).1 p hp
      have hlen₁ : (ptr + 1) + cnt ≤ (hist ++ Δ₁).length := by
        rw [List.length_append]
        omega
      have hfr₁ : ∀ i, ptr + 1 ≤ i → i < (ptr + 1) + cnt →
          Layer volumes r (((hist ++ Δ₁).getD i dfltEntry).1) := by
        intro i hi1 hi2
        rw [getD_append_left (by omega)]
        exact hfr i (by omega) (by omega)
      have hcomp₁ : ∀ m s, m ≤ r → Layer volumes m s →
          s ∈ histStates (hist ++ Δ₁) := by
        intro m s hm hl
        exact mem_histStates_append.mpr (Or.inl (hcomp m s hm hl))
      obtain ⟨Δ₂, vis₂, found₂, heq₂, hvis₂, hsound₂, hΔ₂, hnodup₂, hbdd₂, hff₂,
        hft₂⟩ := ih (ptr + 1) (hist ++ Δ₁) ((Δ₁.map Prod.fst).reverse ++ vis)
          hlen₁ hvis₁ hsound₁ hfr₁ hcomp₁ hnohit₁ hnodup₁ hbdd₁
      have heval : expandPtrs target volumes ptr (cnt + 1) hist vis =
          (hist ++ (Δ₁ ++ Δ₂), vis₂, found₂) := by
        rw [expandPtrs, heq₁]
        change expandPtrs target volumes (ptr + 1) cnt (hist ++ Δ₁)
          ((Δ₁.map Prod.fst).reverse ++ vis) = _
        rw [heq₂, List.append_assoc]
      have hfinal : (hist ++ Δ₁) ++ Δ₂ = hist ++ (Δ₁ ++ Δ₂) := List.append_assoc _ _ _
      refine ⟨Δ₁ ++ Δ₂, vis₂, found₂, heval, ?_, ?_, ?_, ?_, ?_, ?_, ?_⟩
      · intro s
        rw [← hfinal]
        exact hvis₂ s
      · rw [← hfinal]
        exact hsound₂
      · intro p hp
        rcases List.mem_append.mp hp with hp | hp
        · exact (hΔ₁ p hp).1
        · exact hΔ₂ p hp
      · rw [← hfinal]
        exact hnodup₂
      · rw [← hfinal]
        exact hbdd₂
      · intro hfound
        obtain ⟨hnohit₂, hcompl₂⟩ := hff₂ hfound
        refine ⟨by rw [← hfinal]; exact hnohit₂, ?_⟩
        intro w hw hexist
        rw [← hfinal]
        obtain ⟨i, hi1, hi2, hwmem⟩ := hexist
        by_cases hi : i = ptr
        · subst hi
          rcases (hff₁ rfl).2 w hwmem with hwv | hwΔ
          · rcases (hvis w).mp hwv with hm | hm
            · exact mem_histStates_append.mpr
                (Or.inl (mem_histStates_append.mpr (Or.inl hm)))
            · obtain ⟨hne_v, hne_r⟩ := reachAR_ne hw.1
              rcases hm with hm | hm
              · exact absurd hm hne_v
              · exact absurd hm hne_r
          · exact mem_histStates_append.mpr
              (Or.inl (mem_histStates_append.mpr (Or.inr hwΔ)))
        · refine hcompl₂ w hw ⟨i, by omega, by omega, ?_⟩
          rw [getD_append_left (by omega)]
          exact hwmem
      · intro hfound
        obtain ⟨p, hp, hpc⟩ := hft₂ hfound
        exact ⟨p, List.mem_append.mpr (Or.inr hp), hpc⟩

/-- Structural facts about one round that need no invariant: the history only
grows, the appended states were unvisited, and the visited set only grows. -/
theorem expandPtrs_basic (target : Nat) (volumes : VesselsState) :
    ∀ (cnt ptr : Nat) (hist : List HEntry) (vis : List VesselsState),
    ∃ (Δ : List HEntry) (vis' : List VesselsState) (found : Bool),
      expandPtrs target volumes ptr cnt hist vis = (hist ++ Δ, vis', found) ∧
      (∀ p ∈ Δ, p.1 ∉ vis) ∧ (∀ s ∈ vis, s ∈ vis') := by
  intro cnt
  induction cnt with
  | zero =>
    intro ptr hist vis
    exact ⟨[], vis, false, by simp [expandPtrs], by simp, fun s hs => hs⟩
  | succ cnt ih =>
    intro ptr hist vis
    obtain ⟨Δ₁, found₁, heq₁, hmem₁, _, _, _⟩ :=
      pushSuccs_spec target ptr
        ((hist.getD ptr dfltEntry).1.next_states volumes) hist vis
    cases found₁ with
    | true =>
      refine ⟨Δ₁, (Δ₁.map Prod.fst).reverse ++ vis, true, ?_, ?_, ?_⟩
      · rw [expandPtrs, heq₁]
      · exact fun p hp => (hmem₁ p hp).2
      · exact fun s hs => List.mem_append.mpr (Or.inr hs)
    | false =>
      obtain ⟨Δ₂, vis₂, found₂, heq₂, hmem₂, hsub₂⟩ :=
        ih (ptr + 1) (hist ++ Δ₁) ((Δ₁.map Prod.fst).reverse ++ vis)
      refine ⟨Δ₁ ++ Δ₂, vis₂, found₂, ?_, ?_, ?_⟩
      · rw [expandPtrs, heq₁]
        change expandPtrs target volumes (ptr + 1) cnt (hist ++ Δ₁)
          ((Δ₁.map Prod.fst).reverse ++ vis) = _
        rw [heq₂, List.append_assoc]
      · intro p hp
        rcases List.mem_append.mp hp with hp | hp
        · exact (hmem₁ p hp).2
        · intro hpv
          exact hmem₂ p hp (List.mem_append.mpr (Or.inr hpv))
      · intro s hs
        exact hsub₂ s (List.mem_append.mpr (Or.inr hs))

/-- Structural facts about a whole run: the history only grows, every appended
entry holds a state that was unvisited at entry to the loop, and the visited set
only grows. -/
theorem solveLoop_basic (target : Nat) (volumes : VesselsState) :
    ∀ (fuel step old_ptr : Nat) (hist : List HEntry) (vis : List VesselsState),
    ∃ Δ : List HEntry,
      (solveLoop target volumes fuel step old_ptr hist vis).hist = hist ++ Δ ∧
      (∀ p ∈ Δ, p.1 ∉ vis) ∧
      (∀ s ∈ vis, s ∈ (solveLoop target volumes fuel step old_ptr hist vis).vis) := by
  intro fuel
  induction fuel with
  | zero =>
    intro step old_ptr hist vis
    exact ⟨[], by simp [solveLoop], by simp, fun s hs => hs⟩
  | succ fuel ih =>
    intro step old_ptr hist vis
    by_cases hend : old_ptr = hist.length
    · rw [solveLoop, if_pos hend]
      exact ⟨[], by simp, by simp, fun s hs => hs⟩
    · obtain ⟨Δ₁, vis₁, found₁, heq₁, hmem₁, hsub₁⟩ :=
        expandPtrs_basic target volumes (hist.length - old_ptr) old_ptr hist vis
      cases found₁ with
      | true =>
        rw [solveLoop, if_neg hend, heq₁]
        exact ⟨Δ₁, rfl, fun p hp => hmem₁ p hp, fun s hs => hsub₁ s hs⟩
      | false =>
        obtain ⟨Δ₂, heq₂, hmem₂, hsub₂⟩ :=
          ih (step + 1) hist.length (hist ++ Δ₁) vis₁
        rw [solveLoop, if_neg hend, heq₁]
        change ∃ Δ,
          (solveLoop target volumes fuel (step + 1) hist.length (hist ++ Δ₁)
            vis₁).hist = hist ++ Δ ∧ _ ∧
          (∀ s ∈ vis, s ∈ (solveLoop target volumes fuel (step + 1) hist.length
            (hist ++ Δ₁) vis₁).vis)
        refine ⟨Δ₁ ++ Δ₂, ?_, ?_, ?_⟩
        · rw [heq₂, List.append_assoc]
        · intro p hp
          rcases List.mem_append.mp hp with hp | hp
          · exact hmem₁ p hp
          · intro hpv
            exact hmem₂ p hp (hsub₁ p.1 hpv)
        · intro s hs
          exact hsub₂ s (hsub₁ s hs)

/-- When the frontier pointer has stopped advancing, the whole search graph has
been explored and none of it contains the target. -/
theorem exhausted_no_hit (volumes : VesselsState) (target : Nat)
    {r old_ptr : Nat} {hist : List HEntry}
    (hfrc : ∀ s, Layer volumes r s →
      ∃ i, old_ptr ≤ i ∧ i < hist.length ∧ (hist.getD i dfltEntry).1 = s)
    (hcomp : ∀ m s, m ≤ r → Layer volumes m s → s ∈ histStates hist)
    (hnohit : ∀ s ∈ histStates hist, s.contains target = false)
    (hempty : old_ptr = hist.length) :
    ∀ n s, ReachAR volumes n s → s.contains target = false := by
  have hlr : ∀ s, ¬ Layer volumes r s := by
    intro s hl
    obtain ⟨i, hi1, hi2, _⟩ := hfrc s hl
    omega
  intro n s hr
  obtain ⟨m, _, hlm⟩ := exists_layer hr
  rcases Nat.lt_or_ge m r with hmr | hmr
  · exact hnohit s (hcomp m s (by omega) hlm)
  · obtain ⟨w, hw⟩ := layer_below m s hlm r hmr
    exact absurd hw (hlr w)

theorem gcd2_eq (lhs rhs : Nat) : gcd2 lhs rhs = Nat.gcd rhs lhs := by
  induction rhs using Nat.strong_induction_on generalizing lhs with
  | _ rhs ih =>
    rw [gcd2]
    by_cases h : rhs = 0
    · simp [h]
    · rw [dif_neg h, ih (lhs % rhs) (Nat.mod_lt _ (Nat.pos_of_ne_zero h)) rhs]
      rw [Nat.gcd_rec rhs lhs]

theorem gcd3_dvd (a b c : Nat) :
    gcd3 a b c ∣ a ∧ gcd3 a b c ∣ b ∧ gcd3 a b c ∣ c := by
  rw [gcd3, gcd2_eq, gcd2_eq]
  exact ⟨dvd_trans (Nat.gcd_dvd_right c (Nat.gcd b a)) (Nat.gcd_dvd_right b a),
    dvd_trans (Nat.gcd_dvd_right c (Nat.gcd b a)) (Nat.gcd_dvd_left b a),
    Nat.gcd_dvd_left c (Nat.gcd b a)⟩

theorem root_not_contains {target : Nat} (ht : target ≠ 0) :
    VesselsState.contains ⟨0, 0, 0⟩ target = false := by
  unfold VesselsState.contains
  simp only [get_0, get_1, get_2, Bool.or_eq_false_iff, beq_eq_false_iff_ne]
  exact ⟨⟨fun h => ht h.symm, fun h => ht h.symm⟩, fun h => ht h.symm⟩

theorem contains_eq {s : VesselsState} {v : Nat} (h : s.contains v = true) :
    s.get 0 = v ∨ s.get 1 = v ∨ s.get 2 = v := by
  unfold VesselsState.contains at h
  simp only [Bool.or_eq_true, beq_iff_eq] at h
  tauto

/-- Every level of every reachable state is divisible by the gcd of the three
capacities. -/
theorem reach_gcd_dvd {volumes : VesselsState} (h16 : Caps16 volumes)
    {n : Nat} {s : VesselsState} (h : Reach volumes n s) :
    ∀ i, gcd3 volumes.v0 volumes.v1 volumes.v2 ∣ s.get i := by
  induction h with
  | zero =>
    intro i
    fin_cases i <;> exact Dvd.intro 0 rfl
  | @succ n s t hs hedge ih =>
    have hbs : Bounded s volumes := reach_bounded h16 hs
    have hdvd_caps : ∀ i : Fin 3,
        gcd3 volumes.v0 volumes.v1 volumes.v2 ∣ volumes.get i := by
      intro i
      obtain ⟨h0, h1, h2⟩ := gcd3_dvd volumes.v0 volumes.v1 volumes.v2
      fin_cases i
      · exact h0
      · exact h1
      · exact h2
    rcases mem_next_states hedge with ⟨j, hj, rfl⟩ | ⟨j, hj, rfl⟩ |
      ⟨src, dst, hne, hdst, hsrc, rfl⟩
    · intro i
      rw [get_set]
      by_cases hij : i = j
      · rw [if_pos hij]
        exact hdvd_caps j
      · rw [if_neg hij]
        exact ih i
    · intro i
      rw [get_set]
      by_cases hij : i = j
      · rw [if_pos hij]
        exact Dvd.intro 0 rfl
      · rw [if_neg hij]
        exact ih i
    · rw [transfer_eq s volumes src dst hbs h16 hne]
      by_cases hc : s.get src ≤ volumes.get dst - s.get dst
      · rw [if_pos hc]
        intro i
        rw [get_set]
        by_cases hi1 : i = src
        · rw [if_pos hi1]
          exact Dvd.intro 0 rfl
        · rw [if_neg hi1, get_set]
          by_cases hi2 : i = dst
          · rw [if_pos hi2]
            exact dvd_add (ih dst) (ih src)
          · rw [if_neg hi2]
            exact ih i
      · rw [if_neg hc]
        intro i
        rw [get_set]
        by_cases hi1 : i = src
        · rw [if_pos hi1]
          exact Nat.dvd_sub' (ih src) (Nat.dvd_sub' (hdvd_caps dst) (ih dst))
        · rw [if_neg hi1, get_set]
          by_cases hi2 : i = dst
          · rw [if_pos hi2]
            exact hdvd_caps dst
          · rw [if_neg hi2]
            exact ih i

/-- Main BFS correctness: from a loop state satisfying the invariant after `r`
completed rounds, `solveLoop` either returns the index of the first round whose
newly discovered states include one containing the target, or returns `-1`
when no state of the search graph contains the target. -/
theorem solveLoop_main (volumes : VesselsState) (target : Nat)
    (h16 : Caps16 volumes) :
    ∀ (fuel r old_ptr : Nat) (hist : List HEntry) (vis : List VesselsState),
    old_ptr ≤ hist.length →
    (∀ s, s ∈ vis ↔ (s ∈ histStates hist ∨ s = volumes ∨ s = ⟨0, 0, 0⟩)) →
    (∀ s ∈ histStates hist, ∃ m, m ≤ r ∧ Layer volumes m s) →
    (∀ i, old_ptr ≤ i → i < hist.length →
      Layer volumes r ((hist.getD i dfltEntry).1)) →
    (∀ s, Layer volumes r s →
      ∃ i, old_ptr ≤ i ∧ i < hist.length ∧ (hist.getD i dfltEntry).1 = s) →
    (∀ m s, m ≤ r → Layer volumes m s → s ∈ histStates hist) →
    (∀ s ∈ histStates hist, s.contains target = false) →
    (histStates hist).Nodup →
    (∀ s ∈ histStates hist, Bounded s volumes) →
    (volumes.v0 + 1) * (volumes.v1 + 1) * (volumes.v2 + 1) + 2 ≤
      fuel + hist.length →
    (∃ n : Nat,
      (solveLoop target volumes fuel r old_ptr hist vis).res = some (n : Int) ∧
      (∃ s, ReachAR volumes n s ∧ s.contains target = true) ∧
      (∀ m s, m < n → ReachAR volumes m s → s.contains target = false)) ∨
    ((solveLoop target volumes fuel r old_ptr hist vis).res = some (-1) ∧
      (∀ n s, ReachAR volumes n s → s.contains target = false)) := by
  intro fuel
  induction fuel with
  | zero =>
    intro r old_ptr hist vis _ _ _ _ _ _ _ hnodup hbdd hfuel
    exfalso
    have hcap := length_le_of_nodup_bounded volumes (histStates hist) hnodup hbdd
    have hlen : (histStates hist).length = hist.length := by
      unfold histStates
      exact List.length_map _ _
    omega
  | succ fuel ih =>
    intro r old_ptr hist vis hle hvis hsound hfr hfrc hcomp hnohit hnodup hbdd hfuel
    by_cases hend : old_ptr = hist.length
    · rw [solveLoop, if_pos hend]
      exact Or.inr ⟨rfl, exhausted_no_hit volumes target hfrc hcomp hnohit hend⟩
    · obtain ⟨Δ, vis', found, heq, hvis', hsound', hΔ', hnodup', hbdd', hff', hft'⟩ :=
        expandPtrs_inv volumes target r h16 (hist.length - old_ptr) old_ptr hist vis
          (by omega) hvis
          (fun s hs => by
            obtain ⟨m, hm, hl⟩ := hsound s hs
            exact ⟨m, by omega, hl⟩)
          (fun i hi1 hi2 => hfr i hi1 (by omega))
          hcomp hnohit hnodup hbdd
      cases found with
      | true =>
        rw [solveLoop, if_neg hend, heq]
        left
        obtain ⟨p, hp, hpc⟩ := hft' rfl
        refine ⟨r + 1, rfl, ⟨p.1, (hΔ' p hp).1, hpc⟩, ?_⟩
        intro m s hm hrs
        obtain ⟨k, hk, hlk⟩ := exists_layer hrs
        exact hnohit s (hcomp k s (by omega) hlk)
      | false =>
        have hstep : solveLoop target volumes (fuel + 1) r old_ptr hist vis =
            solveLoop target volumes fuel (r + 1) hist.length (hist ++ Δ) vis' := by
          rw [solveLoop, if_neg hend, heq]
        have hlenΔ : (hist ++ Δ).length = hist.length + Δ.length :=
          List.length_append _ _
        have hcap := length_le_of_nodup_bounded volumes (histStates hist) hnodup hbdd
        have hlenh : (histStates hist).length = hist.length := by
          unfold histStates
          exact List.length_map _ _
        have hfr₂ : ∀ i, hist.length ≤ i → i < (hist ++ Δ).length →
            Layer volumes (r + 1) (((hist ++ Δ).getD i dfltEntry).1) := by
          intro i hi1 hi2
          have hij : i = hist.length + (i - hist.length) := by omega
          rw [hij, getD_append_right]
          have hjlt : i - hist.length < Δ.length := by omega
          rw [List.getD_eq_getElem Δ dfltEntry hjlt]
          exact hΔ' _ (List.getElem_mem hjlt)
        have hmem₂ : ∀ s, Layer volumes (r + 1) s → s ∈ histStates (hist ++ Δ) := by
          intro s hs
          obtain ⟨u, hu, hedge, _, _⟩ := layer_pred hs
          obtain ⟨i, hi1, hi2, hie⟩ := hfrc u hu
          refine (hff' rfl).2 s hs ⟨i, hi1, by omega, ?_⟩
          rw [hie]
          exact hedge
        have hfrc₂ : ∀ s, Layer volumes (r + 1) s →
            ∃ i, hist.length ≤ i ∧ i < (hist ++ Δ).length ∧
              ((hist ++ Δ).getD i dfltEntry).1 = s := by
          intro s hs
          have hmem := hmem₂ s hs
          have hnotold : s ∉ histStates hist := by
            intro hold
            obtain ⟨m, hm, hlm⟩ := hsound s hold
            have := layer_unique hlm hs
            omega
          have hsΔ : s ∈ histStates Δ := by
            rcases mem_histStates_append.mp hmem with h | h
            · exact absurd h hnotold
            · exact h
          obtain ⟨j, hj, hje⟩ := mem_histStates_getD hsΔ
          refine ⟨hist.length + j, by omega, by omega, ?_⟩
          rw [getD_append_right]
          exact hje
        have hcomp₂ : ∀ m s, m ≤ r + 1 → Layer volumes m s →
            s ∈ histStates (hist ++ Δ) := by
          intro m s hm hl
          by_cases hmr : m ≤ r
          · exact mem_histStates_append.mpr (Or.inl (hcomp m s hmr hl))
          · have hm1 : m = r + 1 := by omega
            rw [hm1] at hl
            exact hmem₂ s hl
        rw [hstep]
        by_cases hnil : Δ = []
        · subst hnil
          rw [List.append_nil] at hfrc₂ hcomp₂
          have hnohit₂ := (hff' rfl).1
          rw [List.append_nil] at hnohit₂
          cases fuel with
          | zero => omega
          | succ f =>
            rw [List.append_nil, solveLoop, if_pos rfl]
            exact Or.inr ⟨rfl,
              exhausted_no_hit volumes target hfrc₂ hcomp₂ hnohit₂ rfl⟩
        · have hΔpos : 1 ≤ Δ.length := List.length_pos.mpr hnil
          exact ih (r + 1) hist.length (hist ++ Δ) vis'
            (by omega) hvis' hsound' hfr₂ hfrc₂ hcomp₂ (hff' rfl).1 hnodup' hbdd'
            (by omega)

/-- The BFS outcome of a nonzero-target run from the seeded initial state. -/
theorem solve_run_main (volumes : VesselsState) (target : Nat)
    (h16 : Caps16 volumes) (ht : target ≠ 0) :
    (∃ n : Nat, (solve_run volumes target).res = some (n : Int) ∧
      (∃ s, ReachAR volumes n s ∧ s.contains target = true) ∧
      (∀ m s, m < n → ReachAR volumes m s → s.contains target = false)) ∨
    ((solve_run volumes target).res = some (-1) ∧
      (∀ n s, ReachAR volumes n s → s.contains target = false)) := by
  have hlayer0 : Layer volumes 0 ⟨0, 0, 0⟩ :=
    ⟨ReachAR.zero, fun m hm _ => absurd hm (Nat.not_lt_zero m)⟩
  have hzero : ∀ s, Layer volumes 0 s → s = (⟨0, 0, 0⟩ : VesselsState) := by
    intro s hs
    cases hs.1 with
    | zero => rfl
  rw [solve_run, roundFuel]
  apply solveLoop_main volumes target h16
  · simp
  · intro s
    simp only [histStates, List.map_cons, List.map_nil, List.mem_cons,
      List.not_mem_nil, or_false]
    tauto
  · intro s hs
    simp only [histStates, List.map_cons, List.map_nil, List.mem_cons,
      List.not_mem_nil, or_false] at hs
    subst hs
    exact ⟨0, le_refl _, hlayer0⟩
  · intro i hi1 hi2
    simp only [List.length_cons, List.length_nil] at hi2
    have hi0 : i = 0 := by omega
    subst hi0
    exact hlayer0
  · intro s hs
    have := hzero s hs
    subst this
    exact ⟨0, le_refl _, by simp, rfl⟩
  · intro m s hm hl
    have := hzero s (by
      have hm0 : m = 0 := by omega
      rw [hm0] at hl
      exact hl)
    subst this
    simp [histStates]
  · intro s hs
    simp only [histStates, List.map_cons, List.map_nil, List.mem_cons,
      List.not_mem_nil, or_false] at hs
    subst hs
    exact root_not_contains ht
  · simp [histStates]
  · intro s hs
    simp only [histStates, List.map_cons, List.map_nil, List.mem_cons,
      List.not_mem_nil, or_false] at hs
    subst hs
    intro i
    fin_cases i <;> exact Nat.zero_le _
  · simp

/-- C10: with all-zero capacities the `gcd` pre-check in `main` computes
`gcd(0, 0, 0) = 0` and then, for every target, runs into the unguarded
`target % 0` (modelled as `none`, the undefined-behavior outcome). -/
theorem claim_c10_division_by_zero :
    gcd3 0 0 0 = 0 ∧ ∀ target : Nat, gcd_precheck ⟨0, 0, 0⟩ target = none := by
  have h0 : gcd2 0 0 = 0 := by rw [gcd2]; simp
  have h3 : gcd3 0 0 0 = 0 := by rw [gcd3, h0, h0]
  refine ⟨h3, fun target => ?_⟩
  simp [gcd_precheck, h3]

/-- C1 counterexample: with capacities (0, 0, 5) and target 5, one primitive
operation (a Fill of vessel 2) reaches a state containing 5, yet `solve_water`
returns the unsolvable marker, because the all-full state (0, 0, 5) was
pre-marked visited. -/
theorem claim_c1_counterexample :
    solve_water ⟨0, 0, 5⟩ 5 = some (-1) ∧
    Reach ⟨0, 0, 5⟩ 1 ⟨0, 0, 5⟩ ∧
    VesselsState.contains ⟨0, 0, 5⟩ 5 = true := by
  refine ⟨?_, Reach.succ Reach.zero (by decide), by decide⟩
  decide

/-- C1 (amended): for a nonzero target, when `solve_water` returns a
non-negative count `n`, then `n` is the length of a shortest sequence of
primitive operations from the all-empty state to a state containing the target
among the sequences that never step into the all-full state; and when such an
all-full-avoiding sequence exists, `solve_water` does not return the
unsolvable marker. -/
theorem claim_c1_shortest (volumes : VesselsState) (target : Nat)
    (h16 : Caps16 volumes) (ht : target ≠ 0) :
    (∀ n : Nat, solve_water volumes target = some (n : Int) →
      (∃ s, ReachA volumes n s ∧ s.contains target = true) ∧
      (∀ m s, m < n → ReachA volumes m s → s.contains target = false)) ∧
    ((∃ n s, ReachA volumes n s ∧ s.contains target = true) →
      solve_water volumes target ≠ some (-1)) := by
  have hsw : solve_water volumes target = (solve_run volumes target).res := by
    rw [solve_water, if_neg ht]
  rcases solve_run_main volumes target h16 ht with
    ⟨n', hres, ⟨s', hrs', hcs'⟩, hmin⟩ | ⟨hres, hnone⟩
  · constructor
    · intro n hn
      rw [hsw, hres] at hn
      have hnn : (n' : Int) = (n : Int) := Option.some.inj hn
      have hn'n : n' = n := by exact_mod_cast hnn
      subst hn'n
      refine ⟨⟨s', reachAR_reachA hrs', hcs'⟩, ?_⟩
      intro m s hm hra
      by_cases hsr : s = ⟨0, 0, 0⟩
      · rw [hsr]
        exact root_not_contains ht
      · obtain ⟨m', hm', har⟩ := reachA_to_AR hra hsr
        exact hmin m' s (by omega) har
    · intro _ hcontra
      rw [hsw, hres] at hcontra
      have : (n' : Int) = -1 := Option.some.inj hcontra
      omega
  · constructor
    · intro n hn
      rw [hsw, hres] at hn
      have : (-1 : Int) = (n : Int) := Option.some.inj hn
      omega
    · rintro ⟨n, s, hra, hcs⟩ _
      have hsr : s ≠ ⟨0, 0, 0⟩ := by
        intro he
        rw [he, root_not_contains ht] at hcs
        exact Bool.false_ne_true hcs
      obtain ⟨m', _, har⟩ := reachA_to_AR hra hsr
      rw [hnone m' s har] at hcs
      exact Bool.false_ne_true hcs

/-- Witness for the amended C1 at capacities (3, 5, 8), target 4. -/
theorem claim_c1_witness :
    (∀ n : Nat, solve_water ⟨3, 5, 8⟩ 4 = some (n : Int) →
      (∃ s, ReachA ⟨3, 5, 8⟩ n s ∧ s.contains 4 = true) ∧
      (∀ m s, m < n → ReachA ⟨3, 5, 8⟩ m s → s.contains 4 = false)) ∧
    ((∃ n s, ReachA ⟨3, 5, 8⟩ n s ∧ s.contains 4 = true) →
      solve_water ⟨3, 5, 8⟩ 4 ≠ some (-1)) :=
  claim_c1_shortest ⟨3, 5, 8⟩ 4 (by decide) (by decide)

/-- C2: for a nonzero target not divisible by the gcd of the capacities,
`solve_water` returns the unsolvable marker `-1`. -/
theorem claim_c2_gcd_unsolvable (volumes : VesselsState) (target : Nat)
    (h16 : Caps16 volumes) (ht : target ≠ 0)
    (hg : target % gcd3 volumes.v0 volumes.v1 volumes.v2 ≠ 0) :
    solve_water volumes target = some (-1) := by
  rcases solve_run_main volumes target h16 ht with
    ⟨n, hres, ⟨s, hrs, hcs⟩, _⟩ | ⟨hres, _⟩
  · exfalso
    have hreach : Reach volumes n s := reachA_reach (reachAR_reachA hrs)
    have hdvd := reach_gcd_dvd h16 hreach
    have hdt : gcd3 volumes.v0 volumes.v1 volumes.v2 ∣ target := by
      rcases contains_eq hcs with h | h | h
      · rw [← h]; exact hdvd 0
      · rw [← h]; exact hdvd 1
      · rw [← h]; exact hdvd 2
    obtain ⟨k, hk⟩ := hdt
    rw [hk, Nat.mul_mod_right] at hg
    exact hg rfl
  · rw [solve_water, if_neg ht]
    exact hres

/-- Witness for C2: capacities (2, 4, 6), target 5 (gcd is 2, and 5 is odd). -/
theorem claim_c2_witness : solve_water ⟨2, 4, 6⟩ 5 = some (-1) :=
  claim_c2_gcd_unsolvable ⟨2, 4, 6⟩ 5 (by decide) (by decide)
    (by unfold gcd3; rw [gcd2_eq, gcd2_eq]; norm_num)

/-- C7: for a nonzero target, the all-full state is in the visited set of the
run, the history's root entry is the all-empty state with predecessor `-1`, and
no later history entry ever holds the all-full state (so it can never appear in
a reconstructed solution path). -/
theorem claim_c7_allfull_excluded (volumes : VesselsState) (target : Nat)
    (ht : target ≠ 0) :
    volumes ∈ (solve_run volumes target).vis ∧
    (solve_run volumes target).hist.head? = some (⟨0, 0, 0⟩, -1) ∧
    ∀ p ∈ (solve_run volumes target).hist.drop 1, p.1 ≠ volumes := by
  obtain ⟨Δ, hh, hmem, hsub⟩ :=
    solveLoop_basic target volumes (roundFuel volumes) 0 0
      [(⟨0, 0, 0⟩, -1)] [volumes, ⟨0, 0, 0⟩]
  have hrun : solve_run volumes target =
      solveLoop target volumes (roundFuel volumes) 0 0
        [(⟨0, 0, 0⟩, -1)] [volumes, ⟨0, 0, 0⟩] := rfl
  rw [hrun]
  refine ⟨hsub volumes (by simp), ?_, ?_⟩
  · rw [hh]
    simp
  · intro p hp
    rw [hh] at hp
    simp only [List.singleton_append, List.drop_succ_cons, List.drop_zero] at hp
    intro hpv
    exact hmem p hp (by rw [hpv]; exact List.mem_cons_self _ _)

/-- Witness for C7 at capacities (3, 5, 8), target 4. -/
theorem claim_c7_witness :
    (⟨3, 5, 8⟩ : VesselsState) ∈ (solve_run ⟨3, 5, 8⟩ 4).vis ∧
    (solve_run ⟨3, 5, 8⟩ 4).hist.head? = some (⟨0, 0, 0⟩, -1) ∧
    ∀ p ∈ (solve_run ⟨3, 5, 8⟩ 4).hist.drop 1, p.1 ≠ ⟨3, 5, 8⟩ :=
  claim_c7_allfull_excluded ⟨3, 5, 8⟩ 4 (by decide)

/-- C8: `solve_water` always terminates with some integer answer: the visited
set only grows, holds pairwise distinct in-bounds states, and is bounded by the
product of the capacities plus one, so the frontier pointer stops advancing. -/
theorem claim_c8_terminates (volumes : VesselsState) (target : Nat)
    (h16 : Caps16 volumes) :
    ∃ k : Int, solve_water volumes target = some k := by
  by_cases ht : target = 0
  · exact ⟨0, by rw [solve_water, if_pos ht]⟩
  · rcases solve_run_main volumes target h16 ht with ⟨n, hres, _⟩ | ⟨hres, _⟩
    · exact ⟨(n : Int), by rw [solve_water, if_neg ht]; exact hres⟩
    · exact ⟨-1, by rw [solve_water, if_neg ht]; exact hres⟩

/-- Witness for C8 at capacities (3, 5, 8), target 4. -/
theorem claim_c8_witness : ∃ k : Int, solve_water ⟨3, 5, 8⟩ 4 = some k :=
  claim_c8_terminates ⟨3, 5, 8⟩ 4 (by decide)

end WaterPouring
